import Mathlib

/-!
# Formal model of the go-explore exploration utilities

This file gives a shallow embedding of the three source files of the
repository and proves the frozen claims about them.

* `go_explore/utils.py` : `indexes`, `index`, `multinomial`, `sample_geometric`.
* `lge/inverse_model.py` : `InverseModel.forward`.
* `go_explore/inverse_dynamic_go_explore.py` : `InverseModelCelling.compute_cells`,
  `InverseModelLearner.train_once`, the `RecomputeCell` callback and the callback
  wiring of `GoExploreInverseModel.explore`.

Numeric tensors are modelled as lists of rationals (a batch is a list of rows,
each row the flattened element).  Division by zero, which numpy maps to
IEEE-754 special values, is modelled by the `FloatVal` type with explicit
`posInf`, `negInf` and `nan` constructors.  Randomness is modelled by explicit
streams of uniform draws in `[0, 1)`, and the potentially diverging resampling
loop of `sample_geometric` by a fuel parameter: `none` means the loop has not
yet produced a value within the given fuel.
-/

set_option maxRecDepth 4000

namespace GoExplore

/-! ## go_explore/utils.py -/

/-- One row of the numpy comparison `(a == b).all(1)` for a 1-D needle `a`
against one (flattened) row of `b`, with numpy broadcasting: equal lengths
compare elementwise, a length-one side is broadcast against the other,
anything else is a broadcast error (`none`). -/
def broadcastEqRow (a row : List ℚ) : Option Bool :=
  if a.length = row.length then some (decide (a = row))
  else if a.length = 1 then some (row.all fun x => decide (x = a.headI))
  else if row.length = 1 then some (a.all fun x => decide (x = row.headI))
  else none

/-- Model of `np.where(mask)[0]` : the ascending list of positions at which `mask`
holds. -/
def whereTrue (mask : List Bool) : List ℕ :=
  (List.range mask.length).filter fun i => mask.getD i false

/-- The function `indexes(a, b)` from `go_explore/utils.py`: if `b` has no rows, the empty
array; otherwise flatten `a`, reshape `b` to `(N, -1)` (rows are already kept
flattened in this model), compare, and return `np.where((a == b).all(1))[0]`.
A failed broadcast is a numpy error. -/
def indexes (a : List ℚ) (b : List (List ℚ)) : Except String (List ℕ) :=
  if b.length = 0 then Except.ok []
  else if (b.map (broadcastEqRow a)).any Option.isNone then
    Except.error "operands could not be broadcast together"
  else Except.ok (whereTrue ((b.map (broadcastEqRow a)).map fun o => o.getD false))

/-- The function `index(a, b)` from `go_explore/utils.py`: the first element of
`indexes(a, b)`, or `None` if there is none. -/
def index (a : List ℚ) (b : List (List ℚ)) : Except String (Option ℕ) :=
  match indexes a b with
  | Except.error e => Except.error e
  | Except.ok idxs =>
    match idxs with
    | [] => Except.ok none
    | i :: _ => Except.ok (some i)

/-- An IEEE-style value: a finite rational or one of the special values that
numpy produces on division by zero. -/
inductive FloatVal where
  | fin (q : ℚ)
  | posInf
  | negInf
  | nan
deriving DecidableEq

/-- Division `w / s` with numpy float semantics: finite quotient when `s ≠ 0`,
`±inf` for a nonzero numerator over zero, `nan` for `0 / 0`. -/
def fdiv (w s : ℚ) : FloatVal :=
  if s ≠ 0 then FloatVal.fin (w / s)
  else if 0 < w then FloatVal.posInf
  else if w < 0 then FloatVal.negInf
  else FloatVal.nan

/-- The validity check numpy applies to the probability vector handed to
`np.random.multinomial`: an entry is rejected when it is negative, above one,
or not a finite number ("pvals < 0, pvals > 1 or pvals contains NaNs"). -/
def invalidPval (p : FloatVal) : Bool :=
  match p with
  | FloatVal.fin q => decide (q < 0) || decide (1 < q)
  | FloatVal.posInf => true
  | FloatVal.negInf => true
  | FloatVal.nan => true

/-- Inverse-CDF draw, auxiliary scan: `acc` is the cumulative probability of
the entries before position `i`. -/
def cdfIndexAux (u : ℚ) (acc : ℚ) (i : ℕ) : List ℚ → Option ℕ
  | [] => none
  | q :: rest => if u < acc + q then some i else cdfIndexAux u (acc + q) (i + 1) rest

/-- Inverse-CDF draw: the first index `i` whose cumulative probability
exceeds the uniform draw `u`. -/
def cdfIndex (ps : List ℚ) (u : ℚ) : Option ℕ :=
  cdfIndexAux u 0 0 ps

/-- The function `multinomial(weights)` from `go_explore/utils.py`:
`p = weights / weights.sum()`, one draw via `np.random.multinomial(1, p)`,
and the index of the nonzero coordinate.  The draw is parametrised by a
uniform `u`.  numpy raises when the normalized vector has an invalid entry,
and indexing the nonzero coordinates of an empty draw is an index error. -/
def multinomial (weights : List ℚ) (u : ℚ) : Except String ℕ :=
  if (weights.map fun w => fdiv w weights.sum).any invalidPval then
    Except.error "pvals < 0, pvals > 1 or pvals contains NaNs"
  else
    match cdfIndex ((weights.map fun w => fdiv w weights.sum).map fun v =>
        match v with
        | FloatVal.fin q => q
        | _ => 0) u with
    | some i => Except.ok i
    | none => Except.error "index 0 is out of bounds"

/-- Python `int(q)`: truncation toward zero. -/
def pyInt (q : ℚ) : ℤ :=
  if 0 ≤ q then ⌊q⌋ else -⌊-q⌋

/-- Search for the least `k` at or above the given start with
`1 - (1 - p)^k > u`, trying at most `cap` candidates. -/
def geomSearch (p u : ℚ) : ℕ → ℕ → Option ℕ
  | _, 0 => none
  | k, cap + 1 =>
    if u < 1 - (1 - p) ^ k then some k else geomSearch p u (k + 1) cap

/-- Model of `np.random.geometric(p)` on a uniform draw `u`, by inverse CDF: the least
`k ≥ 1` with `1 - (1 - p)^k > u`, searched up to `dfuel` candidates (`none`
stands for a draw larger than `dfuel`, which the resampling loop rejects
whenever `dfuel ≥ max_value`). -/
def np_geometric (p u : ℚ) (dfuel : ℕ) : Option ℕ :=
  geomSearch p u 1 dfuel

/-- The `while True` resampling loop of `sample_geometric`: draw a geometric
variate with the `i`-th uniform, return it if it is `< max_value`, retry
otherwise.  `fuel` bounds the number of iterations modelled. -/
def sampleGeomLoop (us : ℕ → ℚ) (p : ℚ) (max_value dfuel : ℕ) : ℕ → ℕ → Option ℕ
  | _, 0 => none
  | i, fuel + 1 =>
    match np_geometric p (us i) dfuel with
    | some v =>
      if v < max_value then some v
      else sampleGeomLoop us p max_value dfuel (i + 1) fuel
    | none => sampleGeomLoop us p max_value dfuel (i + 1) fuel

/-- The function `sample_geometric(mean, max_value)` from `go_explore/utils.py`: clip the
mean below by `int(max_value / 20)` (`np.clip(mean, a_min=int(max_value/20),
a_max=None)`), then resample `np.random.geometric(1/mean)` until the value is
strictly below `max_value`. -/
def sample_geometric (us : ℕ → ℚ) (fuel dfuel : ℕ) (mean : ℚ) (max_value : ℕ) :
    Option ℕ :=
  sampleGeomLoop us (1 / max mean ((pyInt ((max_value : ℚ) / 20) : ℤ) : ℚ))
    max_value dfuel 0 fuel

/-! ## lge/inverse_model.py -/

/-- The trainable function pair of `InverseModel`: a shared `encoder` and the
`latent_inverse_model` predictor, both acting on one flattened sample. -/
structure InverseModel where
  encoder : List ℚ → List ℚ
  latent_inverse_model : List ℚ → List ℚ

/-- Model of `torch.concat((xs, ys), dim=-1)` on two batches: rowwise concatenation. -/
def concatLastDim (xs ys : List (List ℚ)) : List (List ℚ) :=
  List.zipWith (fun r1 r2 => r1 ++ r2) xs ys

/-- The method `InverseModel.forward` from `lge/inverse_model.py`: encode `obs`, encode
`next_obs` with the same encoder, concatenate the latents along the last
dimension, and apply the latent inverse model. -/
def InverseModel.forward (m : InverseModel) (obs next_obs : List (List ℚ)) :
    List (List ℚ) :=
  ((concatLastDim (obs.map m.encoder) (next_obs.map m.encoder)).map
    m.latent_inverse_model)

/-! ## go_explore/inverse_dynamic_go_explore.py : InverseModelCelling -/

/-- PyTorch module mode, as set by `.train()` / `.eval()`. -/
inductive Mode where
  | train
  | eval
deriving DecidableEq

/-- The mutable state reachable from `InverseModelCelling`: the shared
inverse-model weights (represented by the functions they denote — the
deterministic inference-mode encoder, the dropout-bearing training-mode
encoder which consumes RNG state, and the predictor), the module mode, the
global RNG counter, and the remaining cell-factory fields. -/
structure CellingState where
  encEval : List ℚ → List ℚ
  encTrain : ℕ → List ℚ → List ℚ
  latentModel : List ℚ → List ℚ
  mode : Mode
  rng : ℕ
  obs_shape : List ℕ
  cell_space : List ℕ

/-- Model of `self.inverse_model.eval()` : switch every submodule to inference mode. -/
def setEvalMode (s : CellingState) : CellingState :=
  { s with mode := Mode.eval }

/-- Running the encoder on a batch.  In training mode dropout consumes one
unit of global randomness; in inference mode the pass is deterministic and
leaves the state untouched. -/
def encoderForward (s : CellingState) (batch : List (List ℚ)) :
    List (List ℚ) × CellingState :=
  match s.mode with
  | Mode.eval => (batch.map s.encEval, s)
  | Mode.train => (batch.map (s.encTrain s.rng), { s with rng := s.rng + 1 })

/-- Model of `torch.round(x, decimals=0)` : round to the nearest integer, ties to the
even integer. -/
def roundHalfEven (q : ℚ) : ℤ :=
  if q - ⌊q⌋ < 1 / 2 then ⌊q⌋
  else if 1 / 2 < q - ⌊q⌋ then ⌊q⌋ + 1
  else if ⌊q⌋ % 2 = 0 then ⌊q⌋ else ⌊q⌋ + 1

/-- Model of `observations.float()` : cast an integer observation batch to float. -/
def obsToFloat (obs : List (List ℤ)) : List (List ℚ) :=
  obs.map fun row => row.map fun z => (z : ℚ)

/-- The method `InverseModelCelling.compute_cells` from
`go_explore/inverse_dynamic_go_explore.py`: cast the observations to float,
set the inverse model to inference mode, run the encoder, and return
`torch.round(latent, decimals=0) + 0.0`. -/
def compute_cells (s : CellingState) (observations : List (List ℤ)) :
    List (List ℚ) × CellingState :=
  ((encoderForward (setEvalMode s) (obsToFloat observations)).1.map
      fun row => row.map fun q => ((roundHalfEven q : ℤ) : ℚ) + 0,
    (encoderForward (setEvalMode s) (obsToFloat observations)).2)

/-! ## go_explore/inverse_dynamic_go_explore.py : InverseModelLearner -/

/-- One stored transition of the archive buffer. -/
structure Transition where
  observation : List ℚ
  action : List ℚ
  next_observation : List ℚ

instance : Inhabited Transition :=
  ⟨⟨[], [], []⟩⟩

/-- A batch returned by `ArchiveBuffer.sample`. -/
structure SampleBatch where
  observations : List (List ℚ)
  actions : List (List ℚ)
  next_observations : List (List ℚ)

/-- Modelled from the spec: `ArchiveBuffer.sample` (the class lives in
`go_explore/archive.py`, which is not part of the sources) "draws batchSize
transitions uniformly at random from stored ones; fails with an 'empty
buffer' condition if fewer than batchSize transitions exist".  The random
choice is parametrised by the index stream `pick`. -/
def archiveSample (data : List Transition) (batch_size : ℕ) (pick : ℕ → ℕ) :
    Except String SampleBatch :=
  if data.length < batch_size then
    Except.error "Buffer does not contain enough transitions"
  else
    Except.ok
      { observations :=
          (List.range batch_size).map fun j =>
            (data.getD (pick j % data.length) default).observation
        actions :=
          (List.range batch_size).map fun j =>
            (data.getD (pick j % data.length) default).action
        next_observations :=
          (List.range batch_size).map fun j =>
            (data.getD (pick j % data.length) default).next_observation }

/-- Model of `F.mse_loss(actions, pred_actions)` : mean of the squared elementwise
differences. -/
def mseLoss (ys xs : List (List ℚ)) : ℚ :=
  if ((List.zipWith (fun r1 r2 => List.zipWith (fun c d => (c - d) ^ 2) r1 r2)
        ys xs).flatten).length = 0 then 0
  else
    ((List.zipWith (fun r1 r2 => List.zipWith (fun c d => (c - d) ^ 2) r1 r2)
        ys xs).flatten).sum /
      (((List.zipWith (fun r1 r2 => List.zipWith (fun c d => (c - d) ^ 2) r1 r2)
        ys xs).flatten).length : ℚ)

/-- The state owned by `InverseModelLearner` that `train_once` can touch: the
inverse-model weights, the number of optimizer steps performed, and the
logger records. -/
structure LearnerState where
  model : InverseModel
  optSteps : ℕ
  logs : List (String × ℚ)

/-- The method `InverseModelLearner.train_once` from
`go_explore/inverse_dynamic_go_explore.py`: try to sample a batch; on the
buffer's `ValueError` return `super()._on_step()` (no optimizer step, no
exception); otherwise run the forward pass, compute the MSE prediction loss,
take one optimizer step (the gradient update is the abstract `opt`), and log
`inverse_model/pred_loss`. -/
def train_once (opt : InverseModel → SampleBatch → InverseModel)
    (data : List Transition) (batch_size : ℕ) (pick : ℕ → ℕ)
    (s : LearnerState) : Except String LearnerState :=
  match archiveSample data batch_size pick with
  | Except.error _ => Except.ok s
  | Except.ok sample =>
    Except.ok
      { model := opt s.model sample
        optSteps := s.optSteps + 1
        logs := ("inverse_model/pred_loss",
            mseLoss sample.actions
              (s.model.forward sample.observations sample.next_observations))
          :: s.logs }

/-! ## go_explore/inverse_dynamic_go_explore.py : callback sequencing -/

/-- The observable exploration-loop state for the sequencing claim: the
inverse-model weight version (number of completed optimizer steps), the
number of stored transitions, and the weight version that the last
`recompute_cells` pass read. -/
structure ExploreState where
  version : ℕ
  bufSize : ℕ
  snapshot : ℕ

/-- The weight effect of one `train_once` call: one completed optimizer step
when the buffer holds at least `batch_size` transitions, a silent no-op
otherwise. -/
def trainStep (batch_size : ℕ) (s : ExploreState) : ExploreState :=
  if batch_size ≤ s.bufSize then { s with version := s.version + 1 } else s

/-- The method `InverseModelLearner._on_step`: when `n_calls % train_freq == 0`, run
`gradient_steps` consecutive `train_once` calls. -/
def learnerOnStep (train_freq gradient_steps batch_size n : ℕ)
    (s : ExploreState) : ExploreState :=
  if n % train_freq = 0 then (trainStep batch_size)^[gradient_steps] s else s

/-- The method `RecomputeCell._on_step`: when `n_calls % freq == 0`, call
`archive.recompute_cells()`, which relabels from the current weight
version. -/
def recomputeOnStep (freq n : ℕ) (s : ExploreState) : ExploreState :=
  if n % freq = 0 then { s with snapshot := s.version } else s

/-- Whether `InverseModelLearner` fires at step count `n`. -/
def learnerFires (train_freq n : ℕ) : Bool :=
  n % train_freq = 0

/-- Whether `RecomputeCell` fires at step count `n`. -/
def recomputeFires (freq n : ℕ) : Bool :=
  n % freq = 0

/-- Modelled from the spec: the trainer "run[s] N training timesteps with an
injectable list of callbacks invoked once per environment step", on a single
cooperatively scheduled timeline, the callbacks being called in list order.
`GoExploreInverseModel.explore` installs
`[InverseModelLearner(train_freq=ucf, gradient_steps=ucf),
RecomputeCell(ucf), ImageSaver(...)]`, so at step count `n` the learner runs
first and the recompute callback second (the image saver does not touch this
state). -/
def exploreEnvStep (ucf batch_size n : ℕ) (s : ExploreState) : ExploreState :=
  recomputeOnStep ucf n (learnerOnStep ucf ucf batch_size n s)

/-! ## Theorems -/

/-- C1 : for every observation batch, `InverseModelCelling.compute_cells`
returns the batch obtained by casting the observations to float, evaluating
the shared encoder on them in inference mode, and rounding each latent
coordinate to the nearest integer:
`compute_cells(observations) = round(encoder(observations.float()))`
elementwise. -/
theorem compute_cells_returns_rounded_encoding (s : CellingState)
    (observations : List (List ℤ)) :
    (compute_cells s observations).1 =
      (obsToFloat observations).map fun row =>
        (s.encEval row).map fun q => ((roundHalfEven q : ℤ) : ℚ) := by
  simp [compute_cells, encoderForward, setEvalMode, List.map_map,
    Function.comp_def]

/-- C3 : `InverseModel.forward` produces its predicted action by applying the
same shared encoder independently to `obs` and `next_obs`, concatenating the
two latents along the last dimension, and applying the latent inverse-model
predictor to the concatenation:
`forward(obs, nextObs) = predictor(concat(encoder(obs), encoder(nextObs)))`
for every pair of rows of matching position. -/
theorem forward_is_predictor_of_concat_encodings (m : InverseModel)
    (obs next_obs : List (List ℚ)) :
    m.forward obs next_obs =
      (obs.zip next_obs).map fun p =>
        m.latent_inverse_model (m.encoder p.1 ++ m.encoder p.2) := by
  induction obs generalizing next_obs with
  | nil => simp [InverseModel.forward, concatLastDim]
  | cons o os ih =>
    cases next_obs with
    | nil => simp [InverseModel.forward, concatLastDim]
    | cons y ys =>
      have h := ih ys
      simp [InverseModel.forward, concatLastDim] at h ⊢
      exact h

/-- C9 : `InverseModelCelling.compute_cells` is pure aside from the transient
inference-mode toggle on the shared encoder: the state it returns is exactly
the input state with the mode switched to inference; the encoder weights,
the predictor, the RNG state and the remaining cell-factory fields are
unchanged, and a repeated read from the returned state yields the same
cells and the same state. -/
theorem compute_cells_pure_frame (s : CellingState)
    (observations : List (List ℤ)) :
    (compute_cells s observations).2 = setEvalMode s ∧
    (compute_cells s observations).2.encEval = s.encEval ∧
    (compute_cells s observations).2.encTrain = s.encTrain ∧
    (compute_cells s observations).2.latentModel = s.latentModel ∧
    (compute_cells s observations).2.rng = s.rng ∧
    (compute_cells s observations).2.obs_shape = s.obs_shape ∧
    (compute_cells s observations).2.cell_space = s.cell_space ∧
    compute_cells (compute_cells s observations).2 observations =
      compute_cells s observations := by
  refine ⟨?_, ?_, ?_, ?_, ?_, ?_, ?_, ?_⟩ <;>
    simp [compute_cells, encoderForward, setEvalMode]

/-- When the buffer holds enough transitions, `k` iterations of `trainStep`
advance the weight version by exactly `k`. -/
theorem trainStep_iterate_version (batch_size k : ℕ) (s : ExploreState)
    (h : batch_size ≤ s.bufSize) :
    ((trainStep batch_size)^[k] s).version = s.version + k := by
  induction k generalizing s with
  | zero => rfl
  | succ k ih =>
    have hstep : trainStep batch_size s =
        { s with version := s.version + 1 } := by
      unfold trainStep
      rw [if_pos h]
    rw [Function.iterate_succ_apply, hstep,
      ih { s with version := s.version + 1 } h]
    show s.version + 1 + k = s.version + (k + 1)
    omega

/-- C2 : in the callback list installed by `GoExploreInverseModel.explore`,
`InverseModelLearner` and `RecomputeCell` fire at the same frequency
(`update_cell_factory_freq`), and on every step count that is a multiple of
that frequency the learner's full block of `gradient_steps` weight updates
completes before `RecomputeCell` invokes `recompute_cells`: the recomputation
snapshot is the weight version reached after the whole iterated update, never
an intermediate one, and when the buffer is large enough it equals the
previous version plus the full `gradient_steps` count. -/
theorem explore_recompute_after_full_update (ucf batch_size n : ℕ)
    (s : ExploreState) :
    (∀ k : ℕ, learnerFires ucf k = recomputeFires ucf k) ∧
    (n % ucf = 0 →
      exploreEnvStep ucf batch_size n s =
        recomputeOnStep ucf n ((trainStep batch_size)^[ucf] s) ∧
      (exploreEnvStep ucf batch_size n s).snapshot =
        ((trainStep batch_size)^[ucf] s).version ∧
      (batch_size ≤ s.bufSize →
        (exploreEnvStep ucf batch_size n s).snapshot = s.version + ucf)) := by
  constructor
  · intro k
    rfl
  · intro hn
    have hstep : exploreEnvStep ucf batch_size n s =
        recomputeOnStep ucf n ((trainStep batch_size)^[ucf] s) := by
      unfold exploreEnvStep learnerOnStep
      rw [if_pos hn]
    refine ⟨hstep, ?_, ?_⟩
    · rw [hstep]
      unfold recomputeOnStep
      rw [if_pos hn]
    · intro hbuf
      rw [hstep]
      unfold recomputeOnStep
      rw [if_pos hn]
      simp only
      rw [trainStep_iterate_version batch_size ucf s hbuf]

/-- Witness for C2 at `ucf = 2`, `batch_size = 1`, `n = 4`, starting from
weight version `0` over a buffer of size `3`. -/
theorem explore_recompute_after_full_update_witness :
    (exploreEnvStep 2 1 4 ⟨0, 3, 99⟩).snapshot =
      ((trainStep 1)^[2] ⟨0, 3, 99⟩).version ∧
    (exploreEnvStep 2 1 4 ⟨0, 3, 99⟩).snapshot = 0 + 2 := by
  have h := (explore_recompute_after_full_update 2 1 4 ⟨0, 3, 99⟩).2 (by decide)
  exact ⟨h.2.1, h.2.2 (by decide)⟩

/-- C4 : whenever the archive buffer's `sample` raises the under-filled-buffer
`ValueError` (fewer stored transitions than the batch size),
`InverseModelLearner.train_once` returns normally with the learner state —
model weights, optimizer-step count and logs — unchanged, for every gradient
update rule `opt`: the insufficiency is never surfaced to the caller. -/
theorem train_once_underfull_noop (opt : InverseModel → SampleBatch → InverseModel)
    (data : List Transition) (batch_size : ℕ) (pick : ℕ → ℕ)
    (s : LearnerState) (h : data.length < batch_size) :
    train_once opt data batch_size pick s = Except.ok s := by
  unfold train_once archiveSample
  rw [if_pos h]

/-- Witness for C4 on an empty buffer and batch size `1`. -/
theorem train_once_underfull_noop_witness :
    train_once (fun m _ => m) [] 1 (fun j => j) ⟨⟨id, id⟩, 0, []⟩ =
      Except.ok ⟨⟨id, id⟩, 0, []⟩ :=
  train_once_underfull_noop (fun m _ => m) [] 1 (fun j => j) ⟨⟨id, id⟩, 0, []⟩
    (by decide)

/-- A successful `geomSearch` returns a candidate at or above its starting
point. -/
theorem geomSearch_some_ge (p u : ℚ) :
    ∀ cap k v, geomSearch p u k cap = some v → k ≤ v := by
  intro cap
  induction cap with
  | zero =>
    intro k v h
    simp [geomSearch] at h
  | succ cap ih =>
    intro k v h
    rw [geomSearch] at h
    split at h
    · exact Nat.le_of_eq (Option.some.inj h)
    · exact Nat.le_trans (Nat.le_succ k) (ih (k + 1) v h)

/-- Every `np.random.geometric` draw is at least `1`. -/
theorem np_geometric_some_ge_one (p u : ℚ) (dfuel v : ℕ)
    (h : np_geometric p u dfuel = some v) : 1 ≤ v :=
  geomSearch_some_ge p u dfuel 1 v h

/-- Any value produced by the resampling loop is strictly below `max_value`
and at least `1`. -/
theorem sampleGeomLoop_some_bounds (us : ℕ → ℚ) (p : ℚ) (max_value dfuel : ℕ) :
    ∀ fuel i v, sampleGeomLoop us p max_value dfuel i fuel = some v →
      v < max_value ∧ 1 ≤ v := by
  intro fuel
  induction fuel with
  | zero =>
    intro i v h
    simp [sampleGeomLoop] at h
  | succ fuel ih =>
    intro i v h
    rw [sampleGeomLoop] at h
    cases hg : np_geometric p (us i) dfuel with
    | none =>
      simp only [hg] at h
      exact ih (i + 1) v h
    | some w =>
      simp only [hg] at h
      by_cases hw : w < max_value
      · rw [if_pos hw] at h
        cases Option.some.inj h
        exact ⟨hw, np_geometric_some_ge_one p (us i) dfuel _ hg⟩
      · rw [if_neg hw] at h
        exact ih (i + 1) v h

/-- C7 : for every mean and every `max_value > 1`, whenever
`sample_geometric(mean, max_value)` returns, the returned value lies in
`[0, max_value)` — it is strictly less than `max_value`. -/
theorem sample_geometric_in_range (us : ℕ → ℚ) (fuel dfuel : ℕ) (mean : ℚ)
    (max_value : ℕ) (_hmv : 1 < max_value) (v : ℕ)
    (h : sample_geometric us fuel dfuel mean max_value = some v) :
    0 ≤ v ∧ v < max_value := by
  unfold sample_geometric at h
  exact ⟨Nat.zero_le v, (sampleGeomLoop_some_bounds us _ max_value dfuel fuel 0 v h).1⟩

/-- Witness for C7: `sample_geometric(5, 10)` with uniform draws `0` returns
`1`, which lies in `[0, 10)`. -/
theorem sample_geometric_in_range_witness : (0 : ℕ) ≤ 1 ∧ (1 : ℕ) < 10 :=
  sample_geometric_in_range (fun _ => 0) 1 3 5 10 (by decide) 1
    (by norm_num [sample_geometric, sampleGeomLoop, np_geometric, geomSearch,
      pyInt])

/-- C10 : for every mean and every `max_value > 1`, whenever
`sample_geometric(mean, max_value)` returns, the returned value is at least
`1`, because the underlying geometric draw is always `≥ 1` — strictly tighter
than the stated range `[0, max_value)`. -/
theorem sample_geometric_at_least_one (us : ℕ → ℚ) (fuel dfuel : ℕ)
    (mean : ℚ) (max_value : ℕ) (_hmv : 1 < max_value) (v : ℕ)
    (h : sample_geometric us fuel dfuel mean max_value = some v) :
    1 ≤ v := by
  unfold sample_geometric at h
  exact (sampleGeomLoop_some_bounds us _ max_value dfuel fuel 0 v h).2

/-- Witness for C10: `sample_geometric(6, 12)` with uniform draws `0` returns
`1 ≥ 1`. -/
theorem sample_geometric_at_least_one_witness : (1 : ℕ) ≤ 1 :=
  sample_geometric_at_least_one (fun _ => 0) 1 3 6 12 (by decide) 1
    (by norm_num [sample_geometric, sampleGeomLoop, np_geometric, geomSearch,
      pyInt])

/-- Counterexample to C8 as stated: for `max_value = 30` the claim compares
against the fractional mean `30/20 = 1.5`, but the code clamps with
`int(max_value / 20) = 1`.  With mean `1` (which is `< 30/20`) and the same
uniform draws `0.7`, the call returns `1`, while the call with mean exactly
`30/20` returns `2`: the two calls do not behave identically. -/
theorem sample_geometric_clamp_cex :
    (1 : ℚ) < (30 : ℚ) / 20 ∧
    sample_geometric (fun _ => 7 / 10) 2 3 1 30 = some 1 ∧
    sample_geometric (fun _ => 7 / 10) 2 3 ((30 : ℚ) / 20) 30 = some 2 := by
  refine ⟨by norm_num, ?_, ?_⟩ <;>
    norm_num [sample_geometric, sampleGeomLoop, np_geometric, geomSearch, pyInt]

/-- C8 (amended) : the clamp threshold is the truncated integer
`int(max_value / 20)`, not `max_value / 20` itself: for every mean at most
`int(max_value / 20)`, `sample_geometric(mean, max_value)` behaves
identically (given the same randomness) to
`sample_geometric(int(max_value / 20), max_value)`. -/
theorem sample_geometric_clamp_to_int (us : ℕ → ℚ) (fuel dfuel : ℕ)
    (mean : ℚ) (max_value : ℕ)
    (h : mean ≤ ((pyInt ((max_value : ℚ) / 20) : ℤ) : ℚ)) :
    sample_geometric us fuel dfuel mean max_value =
      sample_geometric us fuel dfuel ((pyInt ((max_value : ℚ) / 20) : ℤ) : ℚ)
        max_value := by
  unfold sample_geometric
  rw [max_eq_right h, max_self]

/-- Witness for the amended C8 at mean `0`, `max_value = 40`. -/
theorem sample_geometric_clamp_to_int_witness :
    sample_geometric (fun _ => 0) 1 3 0 40 =
      sample_geometric (fun _ => 0) 1 3 ((pyInt ((40 : ℚ) / 20) : ℤ) : ℚ) 40 :=
  sample_geometric_clamp_to_int (fun _ => 0) 1 3 0 40 (by norm_num [pyInt])

/-- Dividing anything by a zero sum yields a special float value, which the
multinomial validity check rejects. -/
theorem invalidPval_fdiv_zero (w : ℚ) : invalidPval (fdiv w 0) = true := by
  unfold fdiv
  rw [if_neg (by simp)]
  split_ifs <;> rfl

/-- Counterexample to C5 as stated: the weights `[-1, -1]` contain a negative
entry, yet `multinomial` does not fail — the normalization divides the two
negatives by the negative sum `-2`, producing the perfectly valid
distribution `[1/2, 1/2]`, and an index is returned. -/
theorem multinomial_all_negative_cex :
    ((-1 : ℚ) < 0) ∧ multinomial [-1, -1] 0 = Except.ok 0 := by
  constructor
  · norm_num
  · norm_num [multinomial, fdiv, invalidPval, cdfIndex, cdfIndexAux]

/-- C5 (amended) : for every nonempty weights array, the categorical sampler
fails with the invalid-distribution condition whenever the weights sum to
zero (in particular on all-zero weights), and whenever some entry's sign is
opposite to the nonzero sum's sign — in particular for a negative entry with
positive total.  (All-negative weights, however, normalize to a valid
distribution and do not fail.) -/
theorem multinomial_invalid_raises (ws : List ℚ) (u : ℚ) (hne : ws ≠ [])
    (h : ws.sum = 0 ∨ ((∃ w ∈ ws, w < 0) ∧ 0 < ws.sum) ∨
      ((∃ w ∈ ws, 0 < w) ∧ ws.sum < 0)) :
    ∃ msg, multinomial ws u = Except.error msg := by
  have hany : (ws.map fun w => fdiv w ws.sum).any invalidPval = true := by
    rw [List.any_eq_true]
    rcases h with h0 | ⟨⟨w, hw, hwneg⟩, hpos⟩ | ⟨⟨w, hw, hwpos⟩, hneg⟩
    · obtain ⟨w, ws', rfl⟩ := List.exists_cons_of_ne_nil hne
      refine ⟨fdiv w ((w :: ws').sum),
        List.mem_map_of_mem _ (List.mem_cons_self w ws'), ?_⟩
      rw [h0]
      exact invalidPval_fdiv_zero w
    · refine ⟨fdiv w ws.sum, List.mem_map_of_mem _ hw, ?_⟩
      unfold fdiv
      rw [if_pos (ne_of_gt hpos)]
      unfold invalidPval
      simp only [Bool.or_eq_true, decide_eq_true_eq]
      exact Or.inl (div_neg_of_neg_of_pos hwneg hpos)
    · refine ⟨fdiv w ws.sum, List.mem_map_of_mem _ hw, ?_⟩
      unfold fdiv
      rw [if_pos (ne_of_lt hneg)]
      unfold invalidPval
      simp only [Bool.or_eq_true, decide_eq_true_eq]
      exact Or.inl (div_neg_of_pos_of_neg hwpos hneg)
  unfold multinomial
  rw [if_pos hany]
  exact ⟨_, rfl⟩

/-- Witness for the amended C5: the all-zero weights `[0, 0]` make the
sampler fail. -/
theorem multinomial_invalid_raises_witness :
    ∃ msg, multinomial [0, 0] 0 = Except.error msg :=
  multinomial_invalid_raises [0, 0] 0 (by simp)
    (Or.inl (by norm_num))

/-- On a row of the same flattened length as the needle, the broadcast
comparison is plain elementwise equality. -/
theorem broadcastEqRow_matching (a r : List ℚ) (h : r.length = a.length) :
    broadcastEqRow a r = some (decide (a = r)) := by
  unfold broadcastEqRow
  rw [if_pos h.symm]

/-- Under the documented shape contract (every element of the haystack has
the flattened length of the needle), `indexes` succeeds and returns exactly
the positions whose element equals the needle, in ascending order. -/
theorem indexes_matching (a : List ℚ) (b : List (List ℚ))
    (hlen : ∀ r ∈ b, r.length = a.length) :
    indexes a b =
      Except.ok ((List.range b.length).filter fun i =>
        decide (b.getD i [] = a)) := by
  by_cases hb : b.length = 0
  · have : b = [] := List.length_eq_zero.mp hb
    subst this
    rfl
  · have hmap : b.map (broadcastEqRow a) = b.map fun r => some (decide (a = r)) :=
      List.map_congr_left fun r hr => broadcastEqRow_matching a r (hlen r hr)
    have hany : ((b.map fun r => some (decide (a = r))).any Option.isNone) = false := by
      simp [List.any_map, Function.comp_def]
    rw [indexes, if_neg hb, hmap]
    rw [hany]
    simp only [Bool.false_eq_true, if_false]
    refine congrArg Except.ok ?_
    unfold whereTrue
    rw [List.map_map, List.length_map]
    refine List.filter_congr fun i hi => ?_
    have hilt : i < b.length := List.mem_range.mp hi
    simp only [Function.comp_def, Option.getD_some]
    rw [List.getD_eq_getElem (b.map fun r => decide (a = r)) false
        (by simpa using hilt),
      List.getElem_map, List.getD_eq_getElem b [] hilt]
    exact decide_eq_decide.mpr eq_comm

/-- C6 (amended) : when the haystack `b` is empty, `indexes` returns the
empty array and `index` returns `None`, regardless of the needle; when the
flattened length of every element of `b` equals the flattened length of the
needle (the documented matching-shape contract), every index returned by
`indexes` addresses an element of `b` elementwise-equal to the needle, every
matching position is returned, and `index` returns the smallest such index,
or `None` when there is none.  (Without the shape hypothesis the property
fails by numpy broadcasting, see the counterexample.) -/
theorem indexes_index_matching_spec (a : List ℚ) (b : List (List ℚ)) :
    (b = [] → indexes a b = Except.ok [] ∧ index a b = Except.ok none) ∧
    ((∀ r ∈ b, r.length = a.length) →
      ∃ idxs, indexes a b = Except.ok idxs ∧
        (∀ i ∈ idxs, b.getD i [] = a) ∧
        (∀ i, i < b.length → b.getD i [] = a → i ∈ idxs) ∧
        index a b = Except.ok idxs.head? ∧
        ∀ i, idxs.head? = some i → ∀ j, j < i → b.getD j [] ≠ a) := by
  constructor
  · rintro rfl
    exact ⟨rfl, rfl⟩
  · intro hlen
    refine ⟨(List.range b.length).filter fun i => decide (b.getD i [] = a),
      indexes_matching a b hlen, ?_, ?_, ?_, ?_⟩
    · intro i hi
      exact of_decide_eq_true (List.mem_filter.mp hi).2
    · intro i hilt hieq
      exact List.mem_filter.mpr ⟨List.mem_range.mpr hilt, decide_eq_true hieq⟩
    · unfold index
      rw [indexes_matching a b hlen]
      cases h : (List.range b.length).filter fun i => decide (b.getD i [] = a) with
      | nil => rfl
      | cons i0 tl => rfl
    · intro i hhead j hj hja
      have hpw : ((List.range b.length).filter fun i =>
          decide (b.getD i [] = a)).Pairwise (· < ·) :=
        (List.pairwise_lt_range b.length).filter _
      cases h : (List.range b.length).filter fun i => decide (b.getD i [] = a) with
      | nil =>
        rw [h] at hhead
        simp at hhead
      | cons i0 tl =>
        rw [h] at hhead
        have hi0 : i0 = i := Option.some.inj hhead
        subst hi0
        have hilt : i0 < b.length := by
          have : i0 ∈ (List.range b.length).filter fun i =>
              decide (b.getD i [] = a) := by
            rw [h]
            exact List.mem_cons_self i0 tl
          exact List.mem_range.mp (List.mem_filter.mp this).1
        have hjmem : j ∈ (List.range b.length).filter fun i =>
            decide (b.getD i [] = a) :=
          List.mem_filter.mpr ⟨List.mem_range.mpr (lt_trans hj hilt),
            decide_eq_true hja⟩
        rw [h] at hjmem
        rw [h] at hpw
        rcases List.mem_cons.mp hjmem with hji | hjtl
        · exact absurd hji (Nat.ne_of_lt hj)
        · exact absurd ((List.pairwise_cons.mp hpw).1 j hjtl) (by omega)

/-- Counterexample to C6 as stated: with the scalar needle `[5]` (flattened
length 1) and the haystack `[[5, 5]]`, numpy broadcasting compares `5`
against every coordinate, so `indexes` returns `[0]` although the element at
index 0, `[5, 5]`, does not elementwise-equal the flattened needle `[5]`. -/
theorem indexes_broadcast_cex :
    indexes [(5 : ℚ)] [[5, 5]] = Except.ok [0] ∧
    ([[(5 : ℚ), 5]].getD 0 []) ≠ [(5 : ℚ)] := by
  constructor
  · norm_num [indexes, broadcastEqRow, whereTrue, List.range_succ]
  · simp

/-- Witness for the amended C6 on needle `[1]` and haystack `[[2], [1]]`:
the shape hypothesis holds, and `index` returns the head of the returned
index list. -/
theorem indexes_index_matching_spec_witness :
    ∃ idxs, indexes [(1 : ℚ)] [[2], [1]] = Except.ok idxs ∧
      index [(1 : ℚ)] [[2], [1]] = Except.ok idxs.head? := by
  obtain ⟨idxs, h1, _, _, h4, _⟩ :=
    (indexes_index_matching_spec [(1 : ℚ)] [[2], [1]]).2
      (by intro r hr; fin_cases hr <;> rfl)
  exact ⟨idxs, h1, h4⟩

end GoExplore
